import Mathlib

set_option maxHeartbeats 1000000

/-!
Verification of the semantic similarity engine of the knockknock repository.

The chunker, deduplicator and their cosine similarity live in
src/data/crawling/recap_contents/dedupe_semantic.py; the retrieval manager,
its cosine similarity and the two document stores live in
src/models/rag/rag_core.py and src/models/rag/server.py.

Python strings are modelled as lists of characters, Python floats as real
numbers, and Python ints as naturals or integers depending on the source.
-/

namespace KnockKnock

/-- Python `str` as a character sequence. -/
abbrev Str := List Char

/-! ## Chunker: `chunk_markdown` (dedupe_semantic.py, lines 34-88) -/

/-- Characters removed by Python `str.strip()`. -/
def pyIsSpace (c : Char) : Bool := c.isWhitespace

/-- Python `s.strip()`: drop whitespace from both ends. -/
def pyStrip (s : Str) : Str :=
  ((s.dropWhile pyIsSpace).reverse.dropWhile pyIsSpace).reverse

/-- Python `text.split('\n\n')`: greedy left-to-right split on the
two-newline separator. -/
def splitNN : Str → List Str
  | [] => [[]]
  | '\n' :: '\n' :: rest => [] :: splitNN rest
  | c :: rest => (splitNN rest).modifyHead (c :: ·)

/-- Python `c.split('\n')`. -/
def splitN : Str → List Str
  | [] => [[]]
  | '\n' :: rest => [] :: splitN rest
  | c :: rest => (splitN rest).modifyHead (c :: ·)

/-- The paragraph separator `'\n\n'`. -/
def sepNN : Str := ['\n', '\n']

/-- Python `'\n\n'.join(cur)`. -/
def joinNN (xs : List Str) : Str := List.intercalate sepNN xs

/-- Python `'\n'.join(cur)`. -/
def joinN (xs : List Str) : Str := List.intercalate ['\n'] xs

/-- `[p.strip() for p in text.split('\n\n') if p.strip()]` (line 36). -/
def pyParas (text : Str) : List Str :=
  (splitNN text).filterMap (fun p =>
    if pyStrip p = [] then none else some (pyStrip p))

/-- The paragraph accumulation loop of `chunk_markdown` (lines 37-49):
greedily join consecutive paragraphs while the running length (paragraph
lengths plus 2 per separator) stays within `max_chars`. -/
def stage1Go (max_chars : ℕ) : List Str → List Str → ℕ → List Str
  | [], cur, _ => if cur = [] then [] else [joinNN cur]
  | p :: rest, cur, cur_len =>
    if cur ≠ [] ∧ max_chars < cur_len + p.length + 2 then
      joinNN cur :: stage1Go max_chars rest [p] p.length
    else
      stage1Go max_chars rest (cur ++ [p]) (cur_len + p.length + 2)

/-- Stage 1 of `chunk_markdown`: paragraph grouping. -/
def stage1 (max_chars : ℕ) (text : Str) : List Str :=
  stage1Go max_chars (pyParas text) [] 0

/-- The line accumulation loop of `chunk_markdown` (lines 57-69), applied
to an oversized paragraph-level chunk. -/
def lineSplitGo (max_chars : ℕ) : List Str → List Str → ℕ → List Str
  | [], cur, _ => if cur = [] then [] else [joinN cur]
  | l :: rest, cur, cur_len =>
    if cur ≠ [] ∧ max_chars < cur_len + l.length + 1 then
      joinN cur :: lineSplitGo max_chars rest [l] l.length
    else
      lineSplitGo max_chars rest (cur ++ [l]) (cur_len + l.length + 1)

/-- Stage 2 of `chunk_markdown` (lines 51-69): chunks still larger than
`max_chars` are split again on single newlines. -/
def stage2 (max_chars : ℕ) (chunks : List Str) : List Str :=
  chunks.flatMap (fun c =>
    if c.length ≤ max_chars then [c]
    else lineSplitGo max_chars (splitN c) [] 0)

/-- Python `c.rfind(' ', 0, e)` on the window `l = c[0:e]`: index of the
last space in the window, if any. -/
def lastSpaceIdx (l : Str) : Option ℕ :=
  match l.reverse.findIdx? (· == ' ') with
  | none => none
  | some j => some (l.length - 1 - j)

/-- The slice end point chosen in one iteration of the hard-slice loop
(lines 80-85), phrased on the remaining suffix `r` of the chunk:
`end = min(start + max_chars, L)`, moved back to the last space strictly
inside the window when the window does not reach the end of the chunk. -/
def sliceEnd (max_chars : ℕ) (r : Str) : ℕ :=
  if min max_chars r.length < r.length then
    match lastSpaceIdx (r.take (min max_chars r.length)) with
    | some i => if 0 < i then i else min max_chars r.length
    | none => min max_chars r.length
  else min max_chars r.length

/-- The hard-slice loop of `chunk_markdown` (lines 77-87), phrased on the
remaining suffix `r` of the chunk.  The source loop advances `start` by at
least one character per iteration whenever `max_chars ≥ 1`, so the fuel
argument (instantiated with the chunk length) never runs out there; for
`max_chars = 0` the source loop does not terminate. -/
def sliceGo (max_chars : ℕ) : ℕ → Str → List Str
  | 0, _ => []
  | _ + 1, [] => []
  | fuel + 1, r =>
    pyStrip (r.take (sliceEnd max_chars r)) ::
      sliceGo max_chars fuel (r.drop (sliceEnd max_chars r))

/-- Stage 3 of `chunk_markdown` (lines 70-88): any chunk still larger than
`max_chars` is sliced at character boundaries, preferring the last space
strictly inside the window. -/
def stage3 (max_chars : ℕ) (out : List Str) : List Str :=
  out.flatMap (fun c =>
    if c.length ≤ max_chars then [c]
    else sliceGo max_chars c.length c)

/-- `chunk_markdown(text, max_chars)` (dedupe_semantic.py, lines 34-88). -/
def chunk_markdown (text : Str) (max_chars : ℕ) : List Str :=
  stage3 max_chars (stage2 max_chars (stage1 max_chars text))

/-! ### Chunker lemmas -/

theorem joinNN_single (a : Str) : joinNN [a] = a := by
  simp [joinNN, List.intercalate]

theorem joinNN_cons_cons (a b : Str) (l : List Str) :
    joinNN (a :: b :: l) = a ++ sepNN ++ joinNN (b :: l) := by
  simp [joinNN, List.intercalate, List.intersperse]

theorem joinNN_cons_of_ne_nil (a : Str) {l : List Str} (h : l ≠ []) :
    joinNN (a :: l) = a ++ sepNN ++ joinNN l := by
  cases l with
  | nil => exact absurd rfl h
  | cons b t => exact joinNN_cons_cons a b t

theorem splitNN_ne_nil (s : Str) : splitNN s ≠ [] := by
  induction s using splitNN.induct with
  | case1 => simp [splitNN]
  | case2 rest ih => simp [splitNN]
  | case3 c rest h ih =>
    simp only [splitNN]
    intro hcon
    exact ih (by simpa using congrArg List.length hcon)

theorem joinNN_modifyHead (c : Char) {l : List Str} (h : l ≠ []) :
    joinNN (l.modifyHead (c :: ·)) = c :: joinNN l := by
  cases l with
  | nil => exact absurd rfl h
  | cons q t =>
    cases t with
    | nil => simp [joinNN_single]
    | cons b t' => simp [joinNN_cons_cons]

theorem joinNN_splitNN (s : Str) : joinNN (splitNN s) = s := by
  induction s using splitNN.induct with
  | case1 => simp [splitNN, joinNN_single]
  | case2 rest ih =>
    rw [splitNN, joinNN_cons_of_ne_nil _ (splitNN_ne_nil rest), ih]
    rfl
  | case3 c rest h ih =>
    rw [splitNN, joinNN_modifyHead c (splitNN_ne_nil rest), ih]
    exact h

theorem mem_joinNN_of_mem : ∀ {xs : List Str} {p : Str}, p ∈ xs →
    ∀ {c : Char}, c ∈ p → c ∈ joinNN xs
  | [], p, hp, _, _ => by simp at hp
  | [a], p, hp, c, hc => by
    simp only [List.mem_singleton] at hp
    subst hp
    simpa [joinNN_single] using hc
  | a :: b :: l, p, hp, c, hc => by
    rw [joinNN_cons_cons]
    rcases List.mem_cons.mp hp with rfl | hp'
    · simp [hc]
    · have := mem_joinNN_of_mem hp' hc
      simp [this]

theorem mem_of_mem_joinNN : ∀ {xs : List Str} {c : Char}, c ∈ joinNN xs →
    (∃ p ∈ xs, c ∈ p) ∨ c ∈ sepNN
  | [], c, hc => by simp [joinNN, List.intercalate] at hc
  | [a], c, hc => by
    rw [joinNN_single] at hc
    exact Or.inl ⟨a, by simp, hc⟩
  | a :: b :: l, c, hc => by
    rw [joinNN_cons_cons] at hc
    simp only [List.append_assoc, List.mem_append] at hc
    rcases hc with h | h | h
    · exact Or.inl ⟨a, by simp, h⟩
    · exact Or.inr h
    · rcases mem_of_mem_joinNN h with ⟨p, hp, hcp⟩ | h
      · exact Or.inl ⟨p, by simp [hp], hcp⟩
      · exact Or.inr h

theorem length_joinNN : ∀ {xs : List Str}, xs ≠ [] →
    (joinNN xs).length + 2 = ((xs.map (fun p => p.length + 2)).sum)
  | [], h => absurd rfl h
  | [a], _ => by simp [joinNN_single]
  | a :: b :: l, _ => by
    have ih := @length_joinNN (b :: l) (by simp)
    rw [joinNN_cons_cons]
    simp only [List.map_cons, List.sum_cons, List.length_append] at ih ⊢
    have : sepNN.length = 2 := rfl
    omega

theorem pyStrip_length_le (s : Str) : (pyStrip s).length ≤ s.length := by
  unfold pyStrip
  calc ((s.dropWhile pyIsSpace).reverse.dropWhile pyIsSpace).reverse.length
      = ((s.dropWhile pyIsSpace).reverse.dropWhile pyIsSpace).length := by
        simp
    _ ≤ (s.dropWhile pyIsSpace).reverse.length :=
        (List.dropWhile_sublist _).length_le
    _ = (s.dropWhile pyIsSpace).length := by simp
    _ ≤ s.length := (List.dropWhile_sublist _).length_le

theorem mem_dropWhile_of_not (p : Char → Bool) {c : Char} :
    ∀ {l : Str}, c ∈ l → p c = false → c ∈ l.dropWhile p
  | [], hc, _ => by simp at hc
  | a :: t, hc, hp => by
    by_cases ha : p a
    · rw [List.dropWhile_cons_of_pos ha]
      rcases List.mem_cons.mp hc with rfl | hc'
      · rw [ha] at hp; cases hp
      · exact mem_dropWhile_of_not p hc' hp
    · rw [List.dropWhile_cons_of_neg ha]
      exact hc

theorem mem_pyStrip_of_not {c : Char} {l : Str} (hc : c ∈ l)
    (hp : pyIsSpace c = false) : c ∈ pyStrip l := by
  unfold pyStrip
  rw [List.mem_reverse]
  exact mem_dropWhile_of_not _ (by
    rw [List.mem_reverse]
    exact mem_dropWhile_of_not _ hc hp) hp

theorem pyStrip_eq_nil_of_all {l : Str} (h : ∀ c ∈ l, pyIsSpace c = true) :
    pyStrip l = [] := by
  unfold pyStrip
  have h1 : l.dropWhile pyIsSpace = [] := List.dropWhile_eq_nil_iff.mpr h
  rw [h1]
  rfl

theorem exists_not_space_of_pyStrip_ne_nil {l : Str} (h : pyStrip l ≠ []) :
    ∃ c ∈ pyStrip l, pyIsSpace c = false := by
  unfold pyStrip at h ⊢
  set m := (l.dropWhile pyIsSpace).reverse with hm
  rcases hd : m.dropWhile pyIsSpace with _ | ⟨x, xs⟩
  · rw [hd] at h; simp at h
  · have hx : pyIsSpace x = false := by
      have h2 := List.head_dropWhile_not pyIsSpace m (by simp [hd])
      simpa only [hd, List.head_cons] using h2
    exact ⟨x, by simp, hx⟩

theorem lastSpaceIdx_lt {l : Str} {i : ℕ} (h : lastSpaceIdx l = some i) :
    i < l.length := by
  unfold lastSpaceIdx at h
  rcases hf : l.reverse.findIdx? (· == ' ') with _ | j
  · rw [hf] at h; cases h
  · rw [hf] at h
    have hln : l ≠ [] := by
      intro hc; subst hc; simp at hf
    have hpos : 0 < l.length := List.length_pos.mpr hln
    have hi := Option.some.inj h
    omega

theorem sliceEnd_le (max_chars : ℕ) (r : Str) : sliceEnd max_chars r ≤ max_chars := by
  unfold sliceEnd
  split
  · rcases hs : lastSpaceIdx (r.take (min max_chars r.length)) with _ | i
    · exact min_le_left ..
    · have hi := lastSpaceIdx_lt hs
      simp only [List.length_take] at hi
      show (if 0 < i then i else min max_chars r.length) ≤ max_chars
      split
      · omega
      · exact min_le_left ..
  · exact min_le_left ..

theorem mem_sliceGo_length_le (max_chars : ℕ) :
    ∀ (fuel : ℕ) (r c : Str), c ∈ sliceGo max_chars fuel r → c.length ≤ max_chars := by
  intro fuel
  induction fuel with
  | zero => intro r c h; simp [sliceGo] at h
  | succ n ih =>
    intro r c h
    cases r with
    | nil => simp [sliceGo] at h
    | cons a t =>
      simp only [sliceGo] at h
      rcases List.mem_cons.mp h with rfl | h'
      · calc (pyStrip ((a :: t).take (sliceEnd max_chars (a :: t)))).length
            ≤ ((a :: t).take (sliceEnd max_chars (a :: t))).length :=
              pyStrip_length_le _
          _ ≤ sliceEnd max_chars (a :: t) := by
              simp only [List.length_take]; omega
          _ ≤ max_chars := sliceEnd_le ..
      · exact ih _ _ h'

theorem mem_stage3_length_le (max_chars : ℕ) (l : List Str) :
    ∀ c ∈ stage3 max_chars l, c.length ≤ max_chars := by
  intro c hc
  unfold stage3 at hc
  rcases List.mem_flatMap.mp hc with ⟨x, _, hcx⟩
  by_cases hx : x.length ≤ max_chars
  · rw [if_pos hx] at hcx
    simp only [List.mem_singleton] at hcx
    subst hcx; exact hx
  · rw [if_neg hx] at hcx
    exact mem_sliceGo_length_le max_chars _ _ _ hcx

theorem stage2_all_le {max_chars : ℕ} :
    ∀ {l : List Str}, (∀ c ∈ l, c.length ≤ max_chars) → stage2 max_chars l = l := by
  intro l
  induction l with
  | nil => intro _; rfl
  | cons a t ih =>
    intro h
    unfold stage2 at ih ⊢
    rw [List.flatMap_cons, if_pos (h a (by simp)), ih (fun c hc => h c (by simp [hc]))]
    rfl

theorem stage3_all_le {max_chars : ℕ} :
    ∀ {l : List Str}, (∀ c ∈ l, c.length ≤ max_chars) → stage3 max_chars l = l := by
  intro l
  induction l with
  | nil => intro _; rfl
  | cons a t ih =>
    intro h
    unfold stage3 at ih ⊢
    rw [List.flatMap_cons, if_pos (h a (by simp)), ih (fun c hc => h c (by simp [hc]))]
    rfl

theorem stage1Go_fits (max_chars : ℕ) :
    ∀ (rest cur : List Str) (cur_len : ℕ), cur ≠ [] →
      cur_len + ((rest.map (fun p => p.length + 2)).sum) ≤ max_chars →
      stage1Go max_chars rest cur cur_len = [joinNN (cur ++ rest)] := by
  intro rest
  induction rest with
  | nil => intro cur cur_len hc _; simp [stage1Go, hc]
  | cons p t ih =>
    intro cur cur_len hc hsum
    simp only [List.map_cons, List.sum_cons] at hsum
    rw [stage1Go, if_neg (by
      rintro ⟨-, hover⟩
      omega)]
    rw [ih (cur ++ [p]) (cur_len + p.length + 2) (by simp) (by omega)]
    simp

theorem stage1_fits {max_chars : ℕ} {text : Str} (hp : pyParas text ≠ [])
    (hsum : (((pyParas text).map (fun p => p.length + 2)).sum) ≤ max_chars) :
    stage1 max_chars text = [joinNN (pyParas text)] := by
  unfold stage1
  rcases he : pyParas text with _ | ⟨p, ps⟩
  · exact absurd he hp
  · rw [he] at hsum
    simp only [List.map_cons, List.sum_cons] at hsum
    rw [stage1Go, if_neg (by rintro ⟨hne, -⟩; exact hne rfl)]
    simp only [List.nil_append]
    rw [stage1Go_fits max_chars ps [p] (0 + p.length + 2) (by simp) (by omega)]
    simp

theorem stage1Go_nonblank (max_chars : ℕ) :
    ∀ (rest cur : List Str) (cur_len : ℕ),
      (∀ p ∈ rest, ∃ ch ∈ p, pyIsSpace ch = false) →
      (∀ p ∈ cur, ∃ ch ∈ p, pyIsSpace ch = false) →
      ∀ c ∈ stage1Go max_chars rest cur cur_len, ∃ ch ∈ c, pyIsSpace ch = false := by
  intro rest
  induction rest with
  | nil =>
    intro cur cur_len _ hcur c hmem
    rcases hc : cur with _ | ⟨q, t⟩
    · rw [hc] at hmem; simp [stage1Go] at hmem
    · rw [hc] at hmem
      simp only [stage1Go, if_neg (by simp : ¬(q :: t = []))] at hmem
      simp only [List.mem_singleton] at hmem
      subst hmem
      obtain ⟨ch, hchq, hch⟩ := hcur q (by simp [hc])
      exact ⟨ch, mem_joinNN_of_mem (by simp) hchq, hch⟩
  | cons p t ih =>
    intro cur cur_len hrest hcur c hmem
    rw [stage1Go] at hmem
    split at hmem
    · rename_i hguard
      rcases List.mem_cons.mp hmem with rfl | hmem'
      · rcases hc : cur with _ | ⟨q, tq⟩
        · exact absurd hc hguard.1
        · obtain ⟨ch, hchq, hch⟩ := hcur q (by simp [hc])
          exact ⟨ch, mem_joinNN_of_mem (by simp) hchq, hch⟩
      · exact ih [p] p.length (fun q hq => hrest q (by simp [hq]))
          (by
            intro q hq
            simp only [List.mem_singleton] at hq
            subst hq
            exact hrest q (by simp)) c hmem'
    · exact ih (cur ++ [p]) (cur_len + p.length + 2)
        (fun q hq => hrest q (by simp [hq]))
        (by
          intro q hq
          rcases List.mem_append.mp hq with hq' | hq'
          · exact hcur q hq'
          · simp only [List.mem_singleton] at hq'
            subst hq'
            exact hrest q (by simp)) c hmem

theorem mem_pyParas_nonblank {text q : Str} (hq : q ∈ pyParas text) :
    ∃ ch ∈ q, pyIsSpace ch = false := by
  unfold pyParas at hq
  rcases List.mem_filterMap.mp hq with ⟨p, -, hfp⟩
  split at hfp
  · cases hfp
  · rename_i hne
    obtain ⟨ch, hm, hch⟩ := exists_not_space_of_pyStrip_ne_nil hne
    cases hfp
    exact ⟨ch, hm, hch⟩

theorem pyParas_ne_nil {text : Str} (h : ∃ c ∈ text, pyIsSpace c = false) :
    pyParas text ≠ [] := by
  obtain ⟨c, hct, hc⟩ := h
  rw [← joinNN_splitNN text] at hct
  rcases mem_of_mem_joinNN hct with ⟨p, hp, hcp⟩ | hsep
  · have hstrip : pyStrip p ≠ [] := by
      intro hnil
      have := mem_pyStrip_of_not hcp hc
      rw [hnil] at this
      simp at this
    have : pyStrip p ∈ pyParas text := by
      unfold pyParas
      exact List.mem_filterMap.mpr ⟨p, hp, by simp [hstrip]⟩
    intro hc2
    rw [hc2] at this
    simp at this
  · have hc' : c = '\n' := by simpa [sepNN] using hsep
    subst hc'
    have : pyIsSpace '\n' = true := by decide
    rw [this] at hc; cases hc

theorem pyParas_eq_nil_of_all {text : Str} (h : ∀ c ∈ text, pyIsSpace c = true) :
    pyParas text = [] := by
  unfold pyParas
  rw [List.filterMap_eq_nil_iff]
  intro p hp
  have hstrip : pyStrip p = [] := by
    apply pyStrip_eq_nil_of_all
    intro c hcp
    exact h c (by rw [← joinNN_splitNN text]; exact mem_joinNN_of_mem hp hcp)
  simp [hstrip]

theorem pyParas_sum_le (text : Str) :
    (((pyParas text).map (fun p => p.length + 2)).sum) ≤ text.length + 2 := by
  have hkey : ∀ l : List Str,
      (((l.filterMap (fun p =>
          if pyStrip p = [] then none else some (pyStrip p))).map
            (fun p => p.length + 2)).sum)
        ≤ ((l.map (fun p => p.length + 2)).sum) := by
    intro l
    induction l with
    | nil => simp
    | cons a t ih =>
      by_cases hs : pyStrip a = []
      · rw [List.filterMap_cons_none (by simp [hs])]
        simp only [List.map_cons, List.sum_cons]
        omega
      · rw [@List.filterMap_cons_some _ _
          (fun p => if pyStrip p = [] then none else some (pyStrip p)) a t (pyStrip a)
          (by simp [hs])]
        simp only [List.map_cons, List.sum_cons]
        have := pyStrip_length_le a
        omega
  have hlen : text.length + 2 = (((splitNN text).map (fun p => p.length + 2)).sum) := by
    have := length_joinNN (splitNN_ne_nil text)
    rwa [joinNN_splitNN] at this
  calc (((pyParas text).map (fun p => p.length + 2)).sum)
      ≤ (((splitNN text).map (fun p => p.length + 2)).sum) := hkey _
    _ = text.length + 2 := hlen.symm

/-! ### Claims C7, C8, C9 -/

/-- C7 (amended): for `0 < max_chars`, every chunk produced by
`chunk_markdown` has length at most `max_chars`, with no oversized-token
exception — a single word longer than `max_chars` is hard-sliced at the
limit (at the last whitespace strictly inside the window when one exists)
rather than returned as its own oversized chunk.  The positivity
hypothesis marks the domain on which the source loop terminates. -/
theorem claim_C7_chunk_size_bound (text : Str) (max_chars : ℕ)
    (_hm : 0 < max_chars) :
    ∀ c ∈ chunk_markdown text max_chars, c.length ≤ max_chars := by
  intro c hc
  exact mem_stage3_length_le max_chars _ c hc

/-- Witness for C7 at the concrete input `abc`, `max_chars = 2`. -/
theorem claim_C7_witness :
    0 < 2 ∧ ∀ c ∈ chunk_markdown ['a', 'b', 'c'] 2, c.length ≤ 2 :=
  ⟨by decide, claim_C7_chunk_size_bound ['a', 'b', 'c'] 2 (by decide)⟩

/-- C7 counterexample to the claim as stated: the document is the single
5-character token `aaaaa` with `max_chars = 2`, yet no chunk of length 5
is returned — the token is hard-sliced and every chunk obeys the bound,
so the promised oversized-chunk exception never occurs. -/
theorem claim_C7_counterexample :
    chunk_markdown ['a', 'a', 'a', 'a', 'a'] 2 = [['a', 'a'], ['a', 'a'], ['a']] ∧
    ¬ ∃ c ∈ chunk_markdown ['a', 'a', 'a', 'a', 'a'] 2, 2 < c.length := by
  decide

/-- C8 (amended): input with no non-whitespace character (in particular
the empty document) yields zero chunks; a document with at least one
non-whitespace character and `length + 2 ≤ max_chars` (the accumulation
guard counts a two-character separator overhead) yields exactly one
chunk. -/
theorem claim_C8_single_chunk (text : Str) (max_chars : ℕ) :
    ((∀ c ∈ text, pyIsSpace c = true) → chunk_markdown text max_chars = []) ∧
    ((∃ c ∈ text, pyIsSpace c = false) → text.length + 2 ≤ max_chars →
      (chunk_markdown text max_chars).length = 1) := by
  constructor
  · intro h
    unfold chunk_markdown stage1
    rw [pyParas_eq_nil_of_all h]
    rfl
  · intro hnb hlen
    have hps := pyParas_ne_nil hnb
    have hsum : (((pyParas text).map (fun p => p.length + 2)).sum) ≤ max_chars :=
      le_trans (pyParas_sum_le text) hlen
    have h1 : stage1 max_chars text = [joinNN (pyParas text)] := stage1_fits hps hsum
    have hj := length_joinNN hps
    have hjoin : (joinNN (pyParas text)).length ≤ max_chars := by omega
    have hall : ∀ c ∈ [joinNN (pyParas text)], c.length ≤ max_chars := by
      intro c hc
      simp only [List.mem_singleton] at hc
      subst hc
      exact hjoin
    unfold chunk_markdown
    rw [h1, stage2_all_le hall, stage3_all_le hall]
    rfl

/-- Witness for C8: a short plain word gives one chunk, a single space
gives zero chunks. -/
theorem claim_C8_witness :
    (chunk_markdown ['h', 'i'] 10).length = 1 ∧ chunk_markdown [' '] 10 = [] :=
  ⟨(claim_C8_single_chunk ['h', 'i'] 10).2 (by decide) (by decide),
   (claim_C8_single_chunk [' '] 10).1 (by decide)⟩

/-- C8 counterexample to the claim as stated: the 8-character document
`aaa\n\nbbb` is strictly below `max_chars = 9`, yet two chunks come back,
because the paragraph accumulation guard adds 2 to the running length for
the dropped separator. -/
theorem claim_C8_counterexample :
    (['a', 'a', 'a', '\n', '\n', 'b', 'b', 'b'] : Str).length < 9 ∧
    chunk_markdown ['a', 'a', 'a', '\n', '\n', 'b', 'b', 'b'] 9 =
      [['a', 'a', 'a'], ['b', 'b', 'b']] := by
  decide

/-- C9 (amended): when every paragraph-level chunk already fits within
`max_chars` (so neither line-splitting nor hard-slicing runs), every chunk
returned by `chunk_markdown` contains at least one non-whitespace
character; the line-split and hard-slice fallbacks can emit
whitespace-only or even empty chunks. -/
theorem claim_C9_no_blank_chunk (text : Str) (max_chars : ℕ)
    (h : ∀ c ∈ stage1 max_chars text, c.length ≤ max_chars) :
    ∀ c ∈ chunk_markdown text max_chars, ∃ ch ∈ c, pyIsSpace ch = false := by
  intro c hc
  unfold chunk_markdown at hc
  rw [stage2_all_le h, stage3_all_le h] at hc
  unfold stage1 at hc
  exact stage1Go_nonblank max_chars (pyParas text) [] 0
    (fun p hp => mem_pyParas_nonblank hp) (by simp) c hc

/-- Witness for C9 at the concrete input `hi`, `max_chars = 10`, applied
to its single output chunk. -/
theorem claim_C9_witness :
    ∃ ch ∈ (['h', 'i'] : Str), pyIsSpace ch = false :=
  claim_C9_no_blank_chunk ['h', 'i'] 10 (by decide) ['h', 'i'] (by decide)

/-- C9 counterexample to the claim as stated: `ab\n \ncd` at
`max_chars = 3` returns the whitespace-only chunk consisting of a single
space, and a document with an interior run of ten spaces at
`max_chars = 5` even returns a literally empty chunk. -/
theorem claim_C9_counterexample :
    (∃ c ∈ chunk_markdown ['a', 'b', '\n', ' ', '\n', 'c', 'd'] 3, pyStrip c = []) ∧
    (∃ c ∈ chunk_markdown ('a' :: (List.replicate 10 ' ' ++ ['b'])) 5, c = []) := by
  decide

/-! ## Cosine similarity

Two primitives exist in the source: `cosine_similarity` in
src/models/rag/rag_core.py (lines 59-71, with an explicit length check)
and `cosine_similarity` in dedupe_semantic.py (lines 91-102, accumulating
over `zip(a, b)` with no length check).  Python floats are modelled as
real numbers. -/

namespace RagCore

/-- `cosine_similarity(a, b)` from rag_core.py: returns 0.0 on length
mismatch or when either norm is zero, else dot over product of norms. -/
noncomputable def cosine_similarity (a b : List ℝ) : ℝ :=
  if a.length ≠ b.length then 0
  else
    if Real.sqrt ((a.map (fun x => x ^ 2)).sum) = 0 ∨
        Real.sqrt ((b.map (fun x => x ^ 2)).sum) = 0 then 0
    else
      ((a.zip b).map (fun p => p.1 * p.2)).sum /
        (Real.sqrt ((a.map (fun x => x ^ 2)).sum) *
          Real.sqrt ((b.map (fun x => x ^ 2)).sum))

end RagCore

namespace DedupeSem

/-- `cosine_similarity(a, b)` from dedupe_semantic.py: `dot`, `na`, `nb`
are accumulated over `zip(a, b)` (so only the common prefix counts), and
0.0 is returned when either accumulated norm is zero. -/
noncomputable def cosine_similarity (a b : List ℝ) : ℝ :=
  if ((a.zip b).map (fun p => p.1 * p.1)).sum = 0 ∨
      ((a.zip b).map (fun p => p.2 * p.2)).sum = 0 then 0
  else
    ((a.zip b).map (fun p => p.1 * p.2)).sum /
      (Real.sqrt (((a.zip b).map (fun p => p.1 * p.1)).sum) *
        Real.sqrt (((a.zip b).map (fun p => p.2 * p.2)).sum))

end DedupeSem

theorem zip_sum_swap (f : ℝ → ℝ → ℝ) (a b : List ℝ) :
    ((b.zip a).map (fun p => f p.1 p.2)).sum =
      ((a.zip b).map (fun p => f p.2 p.1)).sum := by
  rw [← List.zip_swap a b, List.map_map]
  rfl

theorem ragcore_cosine_similarity_comm (a b : List ℝ) :
    RagCore.cosine_similarity a b = RagCore.cosine_similarity b a := by
  unfold RagCore.cosine_similarity
  by_cases hl : a.length = b.length
  · rw [if_neg (not_not_intro hl), if_neg (not_not_intro hl.symm)]
    by_cases hn : Real.sqrt ((a.map (fun x => x ^ 2)).sum) = 0 ∨
        Real.sqrt ((b.map (fun x => x ^ 2)).sum) = 0
    · rw [if_pos hn, if_pos (Or.symm hn)]
    · rw [if_neg hn, if_neg (fun hc => hn (Or.symm hc))]
      rw [zip_sum_swap (fun x y => x * y) a b]
      simp only [mul_comm]
  · rw [if_pos hl, if_pos (Ne.symm hl)]

theorem dedupesem_cosine_similarity_comm (a b : List ℝ) :
    DedupeSem.cosine_similarity a b = DedupeSem.cosine_similarity b a := by
  unfold DedupeSem.cosine_similarity
  rw [zip_sum_swap (fun x y => x * x) a b, zip_sum_swap (fun x y => y * y) a b,
    zip_sum_swap (fun x y => x * y) a b]
  by_cases hn : (((a.zip b).map (fun p => p.1 * p.1)).sum = 0 ∨
      ((a.zip b).map (fun p => p.2 * p.2)).sum = 0)
  · rw [if_pos hn, if_pos (Or.symm hn)]
  · rw [if_neg hn, if_neg (fun hc => hn (Or.symm hc))]
    simp only [mul_comm]

/-! ### Claim C3 -/

/-- C3 (amended): the retrieval primitive `RagCore.cosine_similarity`
returns 0.0 on length mismatch and on a zero norm, and both primitives are
symmetric; but the dedup primitive `DedupeSem.cosine_similarity` only
returns 0.0 when an accumulated zipped-prefix norm is zero — on mismatched
lengths it silently truncates to the common prefix instead of returning
0. -/
theorem claim_C3_cosine_similarity (a b : List ℝ) :
    (a.length ≠ b.length → RagCore.cosine_similarity a b = 0) ∧
    ((a.map (fun x => x ^ 2)).sum = 0 ∨ (b.map (fun x => x ^ 2)).sum = 0 →
      RagCore.cosine_similarity a b = 0) ∧
    RagCore.cosine_similarity a b = RagCore.cosine_similarity b a ∧
    (((a.zip b).map (fun p => p.1 * p.1)).sum = 0 ∨
        ((a.zip b).map (fun p => p.2 * p.2)).sum = 0 →
      DedupeSem.cosine_similarity a b = 0) ∧
    DedupeSem.cosine_similarity a b = DedupeSem.cosine_similarity b a := by
  refine ⟨?_, ?_, ragcore_cosine_similarity_comm a b, ?_,
    dedupesem_cosine_similarity_comm a b⟩
  · intro h
    unfold RagCore.cosine_similarity
    rw [if_pos h]
  · intro h
    unfold RagCore.cosine_similarity
    by_cases hl : a.length ≠ b.length
    · rw [if_pos hl]
    · rw [if_neg hl, if_pos]
      rcases h with h | h
      · exact Or.inl (by rw [h, Real.sqrt_zero])
      · exact Or.inr (by rw [h, Real.sqrt_zero])
  · intro h
    unfold DedupeSem.cosine_similarity
    rw [if_pos h]

/-- Witness for C3 at concrete vectors of mismatched length and zero
norm. -/
theorem claim_C3_witness :
    RagCore.cosine_similarity [0] [1, 2] = 0 ∧
    DedupeSem.cosine_similarity [0] [1, 2] = 0 :=
  ⟨(claim_C3_cosine_similarity [0] [1, 2]).1 (by simp),
   (claim_C3_cosine_similarity [0] [1, 2]).2.2.2.1 (Or.inl (by simp))⟩

/-- C3 counterexample to the claim as stated: the dedup primitive does not
return 0.0 on mismatched lengths — on `[1]` versus `[1, 1]` it returns
1.0 (the cosine of the zipped one-element prefix). -/
theorem claim_C3_counterexample :
    ([(1 : ℝ)].length ≠ [(1 : ℝ), 1].length) ∧
    DedupeSem.cosine_similarity [1] [1, 1] = 1 := by
  constructor
  · simp
  · unfold DedupeSem.cosine_similarity
    norm_num

/-! ## Deduplicator: `dedupe_chunks` (dedupe_semantic.py, lines 187-200) -/

open Classical in
/-- The `for idx, (c, e) in enumerate(zip(chunks, embeddings))` loop of
`dedupe_chunks`, carrying the `kept` and `kept_embs` accumulators; an item
is a duplicate when some already-kept embedding has similarity at least
the threshold. -/
noncomputable def dedupeGo (threshold : ℝ) :
    List (ℕ × (Str × List ℝ)) → List (ℕ × Str) → List (List ℝ) →
      List (ℕ × Str) × List (List ℝ)
  | [], kept, kept_embs => (kept, kept_embs)
  | (idx, (c, e)) :: rest, kept, kept_embs =>
    if ∃ ke ∈ kept_embs, threshold ≤ DedupeSem.cosine_similarity e ke then
      dedupeGo threshold rest kept kept_embs
    else
      dedupeGo threshold rest (kept ++ [(idx, c)]) (kept_embs ++ [e])

/-- `dedupe_chunks(chunks, embeddings, threshold)`: the kept
`(orig_index, text)` pairs, in processing order. -/
noncomputable def dedupe_chunks (chunks : List Str)
    (embeddings : List (List ℝ)) (threshold : ℝ) : List (ℕ × Str) :=
  (dedupeGo threshold (chunks.zip embeddings).enum [] []).1

/-- The final `kept_embs` accumulator of the same loop: the embeddings of
the kept chunks, parallel to `dedupe_chunks`. -/
noncomputable def dedupe_kept_embs (chunks : List Str)
    (embeddings : List (List ℝ)) (threshold : ℝ) : List (List ℝ) :=
  (dedupeGo threshold (chunks.zip embeddings).enum [] []).2

theorem forall2_exists_of_mem_right {α β : Type} {R : α → β → Prop} :
    ∀ {l1 : List α} {l2 : List β}, List.Forall₂ R l1 l2 →
      ∀ {b}, b ∈ l2 → ∃ a ∈ l1, R a b := by
  intro l1 l2 h
  induction h with
  | nil => intro b hb; simp at hb
  | cons hR _ ih =>
    intro b hb
    rcases List.mem_cons.mp hb with rfl | hb'
    · exact ⟨_, by simp, hR⟩
    · obtain ⟨a, ha, hr⟩ := ih hb'
      exact ⟨a, by simp [ha], hr⟩

theorem forall2_exists_of_mem_left {α β : Type} {R : α → β → Prop} :
    ∀ {l1 : List α} {l2 : List β}, List.Forall₂ R l1 l2 →
      ∀ {a}, a ∈ l1 → ∃ b ∈ l2, R a b := by
  intro l1 l2 h
  induction h with
  | nil => intro a ha; simp at ha
  | cons hR _ ih =>
    intro a ha
    rcases List.mem_cons.mp ha with rfl | ha'
    · exact ⟨_, by simp, hR⟩
    · obtain ⟨b, hb, hr⟩ := ih ha'
      exact ⟨b, by simp [hb], hr⟩

/-- Loop invariant of `dedupeGo`: the kept list and its embeddings stay
parallel (`E` gives the embedding of each original index, `C` its text),
kept indices stay strictly increasing, the accumulator is extended only
at the tail, and an index is kept exactly when every earlier kept
embedding is strictly below the threshold. -/
theorem dedupeGo_spec (threshold : ℝ) (E : ℕ → List ℝ) (C : ℕ → Str) :
    ∀ (pend : List (ℕ × (Str × List ℝ))) (kept : List (ℕ × Str))
      (kept_embs : List (List ℝ)),
      (∀ t ∈ pend, t.2.2 = E t.1 ∧ t.2.1 = C t.1) →
      List.Forall₂ (fun (p : ℕ × Str) (e : List ℝ) => e = E p.1) kept kept_embs →
      (∀ p ∈ kept, p.2 = C p.1) →
      (∀ i ∈ kept.map Prod.fst, ∀ j ∈ pend.map Prod.fst, i < j) →
      (pend.map Prod.fst).Pairwise (· < ·) →
      (kept.map Prod.fst).Pairwise (· < ·) →
      List.Forall₂ (fun (p : ℕ × Str) (e : List ℝ) => e = E p.1)
          (dedupeGo threshold pend kept kept_embs).1
          (dedupeGo threshold pend kept kept_embs).2 ∧
        (∀ p ∈ (dedupeGo threshold pend kept kept_embs).1, p.2 = C p.1) ∧
        ((dedupeGo threshold pend kept kept_embs).1.map Prod.fst).Pairwise (· < ·) ∧
        (∃ tail, (dedupeGo threshold pend kept kept_embs).1 = kept ++ tail ∧
          ∀ p ∈ tail, p.1 ∈ pend.map Prod.fst) ∧
        (∀ i ∈ pend.map Prod.fst,
          (i ∈ ((dedupeGo threshold pend kept kept_embs).1.map Prod.fst) ↔
            ∀ j ∈ ((dedupeGo threshold pend kept kept_embs).1.map Prod.fst),
              j < i →
                DedupeSem.cosine_similarity (E i) (E j) < threshold)) := by
  intro pend
  induction pend with
  | nil =>
    intro kept kept_embs _ hKI hTxt _ _ hKept
    simp only [dedupeGo]
    exact ⟨hKI, hTxt, hKept, ⟨[], by simp, by simp⟩, by simp⟩
  | cons t rest ih =>
    obtain ⟨idx, c, e⟩ := t
    intro kept kept_embs hWF hKI hTxt hOrd hPend hKept
    have hE : e = E idx := (hWF (idx, (c, e)) (by simp)).1
    have hC : c = C idx := (hWF (idx, (c, e)) (by simp)).2
    have hPcons := List.pairwise_cons.mp (by
      simpa only [List.map_cons] using hPend)
    have hidx : ∀ j ∈ rest.map Prod.fst, idx < j := hPcons.1
    have hPrest : (rest.map Prod.fst).Pairwise (· < ·) := hPcons.2
    have hWFrest : ∀ t ∈ rest, t.2.2 = E t.1 ∧ t.2.1 = C t.1 :=
      fun t ht => hWF t (by simp [ht])
    have hkeptlt : ∀ i ∈ kept.map Prod.fst, i < idx :=
      fun i hi => hOrd i hi idx (by simp)
    by_cases hdup : ∃ ke ∈ kept_embs, threshold ≤ DedupeSem.cosine_similarity e ke
    · rw [dedupeGo, if_pos hdup]
      obtain ⟨IH1, IH2, IH3, ⟨tail, htail, htmem⟩, IH5⟩ :=
        ih kept kept_embs hWFrest hKI hTxt
          (fun i hi j hj => hOrd i hi j (by simp [hj])) hPrest hKept
      refine ⟨IH1, IH2, IH3, ⟨tail, htail, fun p hp => by
        simp only [List.map_cons]
        exact List.mem_cons_of_mem _ (htmem p hp)⟩, ?_⟩
      intro i hi
      rcases List.mem_cons.mp (show i ∈ idx :: rest.map Prod.fst by
          simpa only [List.map_cons] using hi) with rfl | hi'
      · have hnotmem : i ∉ ((dedupeGo threshold rest kept kept_embs).1.map Prod.fst) := by
          rw [htail]
          intro hmem
          rcases List.mem_map.mp hmem with ⟨p, hp, hpi⟩
          rcases List.mem_append.mp hp with hp' | hp'
          · exact absurd (hpi ▸ hkeptlt p.1 (List.mem_map_of_mem Prod.fst hp'))
              (lt_irrefl i)
          · exact absurd (hpi ▸ hidx p.1 (htmem p hp')) (lt_irrefl i)
        refine iff_of_false hnotmem ?_
        intro hall
        obtain ⟨ke, hke, hsim⟩ := hdup
        obtain ⟨p, hp, hpe⟩ := forall2_exists_of_mem_right hKI hke
        have hpin : p.1 ∈ ((dedupeGo threshold rest kept kept_embs).1.map Prod.fst) := by
          rw [htail]
          exact List.mem_map_of_mem Prod.fst (List.mem_append.mpr (Or.inl hp))
        have hlt : p.1 < i := hkeptlt p.1 (List.mem_map_of_mem Prod.fst hp)
        have := hall p.1 hpin hlt
        rw [hpe] at hsim
        rw [hE] at hsim
        exact absurd this (not_lt.mpr hsim)
      · exact IH5 i (by simpa using hi')
    · rw [dedupeGo, if_neg hdup]
      have hKI' : List.Forall₂ (fun (p : ℕ × Str) (e : List ℝ) => e = E p.1)
          (kept ++ [(idx, c)]) (kept_embs ++ [e]) :=
        List.rel_append hKI (List.Forall₂.cons hE List.Forall₂.nil)
      have hTxt' : ∀ p ∈ kept ++ [(idx, c)], p.2 = C p.1 := by
        intro p hp
        rcases List.mem_append.mp hp with hp' | hp'
        · exact hTxt p hp'
        · simp only [List.mem_singleton] at hp'
          subst hp'
          exact hC
      have hOrd' : ∀ i ∈ (kept ++ [(idx, c)]).map Prod.fst,
          ∀ j ∈ rest.map Prod.fst, i < j := by
        intro i hi j hj
        rcases List.mem_map.mp hi with ⟨p, hp, hpi⟩
        rcases List.mem_append.mp hp with hp' | hp'
        · exact hOrd i (hpi ▸ List.mem_map_of_mem Prod.fst hp') j (by simp [hj])
        · simp only [List.mem_singleton] at hp'
          subst hp'
          exact hpi ▸ hidx j hj
      have hKept' : ((kept ++ [(idx, c)]).map Prod.fst).Pairwise (· < ·) := by
        rw [List.map_append]
        refine List.pairwise_append.mpr ⟨hKept, by simp, ?_⟩
        intro i hi j hj
        simp only [List.map_cons, List.map_nil, List.mem_singleton] at hj
        subst hj
        exact hkeptlt i hi
      obtain ⟨IH1, IH2, IH3, ⟨tail, htail, htmem⟩, IH5⟩ :=
        ih (kept ++ [(idx, c)]) (kept_embs ++ [e]) hWFrest hKI' hTxt' hOrd'
          hPrest hKept'
      have houtidx : idx ∈ ((dedupeGo threshold rest (kept ++ [(idx, c)])
          (kept_embs ++ [e])).1.map Prod.fst) := by
        rw [htail]
        exact List.mem_map_of_mem Prod.fst
          (List.mem_append.mpr (Or.inl (List.mem_append.mpr
            (Or.inr (List.mem_singleton.mpr rfl)))))
      refine ⟨IH1, IH2, IH3,
        ⟨(idx, c) :: tail, by rw [htail]; simp, ?_⟩, ?_⟩
      · intro p hp
        rcases List.mem_cons.mp hp with rfl | hp'
        · simp
        · simp [htmem p hp']
      · intro i hi
        rcases List.mem_cons.mp (show i ∈ idx :: rest.map Prod.fst by
            simpa only [List.map_cons] using hi) with rfl | hi'
        · refine iff_of_true houtidx ?_
          intro j hj hji
          rw [htail, List.map_append] at hj
          rcases List.mem_append.mp hj with hj' | hj'
          · rw [List.map_append] at hj'
            rcases List.mem_append.mp hj' with hj'' | hj''
            · rcases List.mem_map.mp hj'' with ⟨p, hp, hpj⟩
              obtain ⟨ke, hke, hpe⟩ := forall2_exists_of_mem_left hKI hp
              have hsim : DedupeSem.cosine_similarity e ke < threshold := by
                by_contra hcon
                exact hdup ⟨ke, hke, not_lt.mp hcon⟩
              rw [hpe, hpj] at hsim
              rw [← hE]
              exact hsim
            · simp only [List.map_cons, List.map_nil, List.mem_singleton] at hj''
              subst hj''
              exact absurd hji (lt_irrefl _)
          · rcases List.mem_map.mp hj' with ⟨p, hp, hpj⟩
            exact absurd hji (not_lt.mpr (le_of_lt (hpj ▸ hidx p.1 (htmem p hp))))
        · exact IH5 i (by simpa using hi')

theorem enum_zip_wf (chunks : List Str) (embeddings : List (List ℝ)) :
    ∀ t ∈ (chunks.zip embeddings).enum,
      t.2.2 = embeddings.getD t.1 [] ∧ t.2.1 = chunks.getD t.1 [] := by
  rintro ⟨i, a, b⟩ ht
  have h := (List.mem_enum_iff_getElem? ..).mp ht
  rw [List.getElem?_zip_eq_some] at h
  constructor
  · rw [List.getD_eq_getElem?_getD, h.2]
    rfl
  · rw [List.getD_eq_getElem?_getD, h.1]
    rfl

/-! ### Claim C4 -/

/-- C4: `dedupe_chunks` keeps an input exactly when its similarity to
every previously kept embedding is strictly below the threshold (an input
whose similarity to some kept item reaches the threshold is discarded),
kept pairs carry the original chunk text, and the original indices in the
output are strictly increasing. -/
theorem claim_C4_dedupe_greedy (chunks : List Str)
    (embeddings : List (List ℝ)) (threshold : ℝ) :
    ((dedupe_chunks chunks embeddings threshold).map Prod.fst).Pairwise (· < ·) ∧
    (∀ p ∈ dedupe_chunks chunks embeddings threshold,
      p.2 = chunks.getD p.1 []) ∧
    (∀ k, k < chunks.length → k < embeddings.length →
      (k ∈ (dedupe_chunks chunks embeddings threshold).map Prod.fst ↔
        ∀ j ∈ (dedupe_chunks chunks embeddings threshold).map Prod.fst, j < k →
          DedupeSem.cosine_similarity (embeddings.getD k [])
            (embeddings.getD j []) < threshold)) := by
  obtain ⟨-, H2, H3, -, H5⟩ :=
    dedupeGo_spec threshold (fun i => embeddings.getD i [])
      (fun i => chunks.getD i []) (chunks.zip embeddings).enum [] []
      (enum_zip_wf chunks embeddings) List.Forall₂.nil (by simp) (by simp)
      (by rw [List.enum_map_fst]; exact List.pairwise_lt_range _) (by simp)
  refine ⟨H3, H2, ?_⟩
  intro k hk1 hk2
  have hkmem : k ∈ ((chunks.zip embeddings).enum.map Prod.fst) := by
    rw [List.enum_map_fst, List.mem_range, List.length_zip]
    omega
  exact H5 k hkmem

/-- Witness for C4: the characterization applied at the one-element input,
index 0. -/
theorem claim_C4_witness :
    0 ∈ (dedupe_chunks [['a']] [[(1 : ℝ)]] (9 / 10)).map Prod.fst ↔
      ∀ j ∈ (dedupe_chunks [['a']] [[(1 : ℝ)]] (9 / 10)).map Prod.fst, j < 0 →
        DedupeSem.cosine_similarity ([[(1 : ℝ)]].getD 0 [])
          ([[(1 : ℝ)]].getD j []) < 9 / 10 :=
  (claim_C4_dedupe_greedy [['a']] [[(1 : ℝ)]] (9 / 10)).2.2 0 (by decide) (by decide)

/-! ### Claim C5 -/

/-- If every pending item is strictly below the threshold against all
earlier pending items and all already-kept embeddings, the loop keeps
everything. -/
theorem dedupeGo_keep_all (threshold : ℝ) :
    ∀ (pend : List (ℕ × (Str × List ℝ))),
      pend.Pairwise (fun s t =>
        DedupeSem.cosine_similarity t.2.2 s.2.2 < threshold) →
      ∀ (kept : List (ℕ × Str)) (kept_embs : List (List ℝ)),
        (∀ ke ∈ kept_embs, ∀ t ∈ pend,
          DedupeSem.cosine_similarity t.2.2 ke < threshold) →
        dedupeGo threshold pend kept kept_embs =
          (kept ++ pend.map (fun t => (t.1, t.2.1)),
            kept_embs ++ pend.map (fun t => t.2.2)) := by
  intro pend
  induction pend with
  | nil =>
    intro _ kept kept_embs _
    simp [dedupeGo]
  | cons t rest ih =>
    obtain ⟨idx, c, e⟩ := t
    intro hsim kept kept_embs hK
    have hcons := List.pairwise_cons.mp hsim
    have hnd : ¬ ∃ ke ∈ kept_embs,
        threshold ≤ DedupeSem.cosine_similarity e ke := by
      rintro ⟨ke, hke, hge⟩
      exact absurd (hK ke hke (idx, (c, e)) (by simp)) (not_lt.mpr hge)
    rw [dedupeGo, if_neg hnd]
    rw [ih hcons.2 (kept ++ [(idx, c)]) (kept_embs ++ [e]) (by
      intro ke hke t' ht'
      rcases List.mem_append.mp hke with h' | h'
      · exact hK ke h' t' (by simp [ht'])
      · simp only [List.mem_singleton] at h'
        subst h'
        exact hcons.1 t' ht')]
    simp

theorem enum_zip_map_fst_text {α β : Type} (A : List α) (B : List β)
    (h : A.length ≤ B.length) :
    (A.zip B).enum.map (fun t => (t.1, t.2.1)) = A.enum := by
  apply List.ext_getElem
  · simp only [List.length_map, List.enum_length, List.length_zip]
    omega
  · intro i h1 h2
    simp only [List.length_map, List.enum_length, List.length_zip, lt_min_iff] at h1
    simp [List.getElem_map, List.getElem_enum, List.getElem_zip]

/-- C5: dedup is idempotent — running `dedupe_chunks` again on the kept
chunks and their kept embeddings, with the same threshold, keeps every
item: the second pass returns exactly the enumeration of its input. -/
theorem claim_C5_dedupe_idempotent (chunks : List Str)
    (embeddings : List (List ℝ)) (threshold : ℝ) :
    dedupe_chunks ((dedupe_chunks chunks embeddings threshold).map Prod.snd)
        (dedupe_kept_embs chunks embeddings threshold) threshold
      = ((dedupe_chunks chunks embeddings threshold).map Prod.snd).enum := by
  obtain ⟨H1, -, H3, ⟨tail, htail, htmem⟩, H5⟩ :=
    dedupeGo_spec threshold (fun i => embeddings.getD i [])
      (fun i => chunks.getD i []) (chunks.zip embeddings).enum [] []
      (enum_zip_wf chunks embeddings) List.Forall₂.nil (by simp) (by simp)
      (by rw [List.enum_map_fst]; exact List.pairwise_lt_range _) (by simp)
  have hgo1 : (dedupeGo threshold (chunks.zip embeddings).enum [] []).1
      = dedupe_chunks chunks embeddings threshold := rfl
  have hgo2 : (dedupeGo threshold (chunks.zip embeddings).enum [] []).2
      = dedupe_kept_embs chunks embeddings threshold := rfl
  rw [hgo1, hgo2] at H1
  rw [hgo1] at H3 H5 htail
  set out := dedupe_chunks chunks embeddings threshold with hout
  set outE := dedupe_kept_embs chunks embeddings threshold with houtE
  have hlen : out.length = outE.length := H1.length_eq
  have hElem := (List.forall₂_iff_get.mp H1).2
  have hidxE : ∀ (i : ℕ) (hi : i < out.length),
      outE.get ⟨i, by omega⟩ = embeddings.getD (out.get ⟨i, hi⟩).1 [] := by
    intro i hi
    exact hElem i hi (by omega)
  have hidxlt : ∀ (i j : ℕ) (hi : i < out.length) (hj : j < out.length),
      i < j → (out.get ⟨i, hi⟩).1 < (out.get ⟨j, hj⟩).1 := by
    intro i j hi hj hij
    have := List.pairwise_iff_getElem.mp H3 i j (by simpa using hi)
      (by simpa using hj) hij
    simpa using this
  have hsimpair : ∀ (i j : ℕ) (hi : i < out.length) (hj : j < out.length),
      i < j →
        DedupeSem.cosine_similarity (outE.get ⟨j, by omega⟩)
          (outE.get ⟨i, by omega⟩) < threshold := by
    intro i j hi hj hij
    have hjmem : (out.get ⟨j, hj⟩).1 ∈ out.map Prod.fst :=
      List.mem_map_of_mem Prod.fst (out.get_mem ..)
    have hjpend : (out.get ⟨j, hj⟩).1 ∈ ((chunks.zip embeddings).enum.map Prod.fst) := by
      obtain ⟨p, hp, hpe⟩ : ∃ p ∈ out, p = out.get ⟨j, hj⟩ := ⟨_, out.get_mem .., rfl⟩
      rw [htail] at hp
      rw [← hpe]
      exact htmem p (by simpa using hp)
    have hchar := (H5 _ hjpend).mp hjmem
    have himem : (out.get ⟨i, hi⟩).1 ∈ out.map Prod.fst :=
      List.mem_map_of_mem Prod.fst (out.get_mem ..)
    have := hchar _ himem (hidxlt i j hi hj hij)
    rw [hidxE i hi, hidxE j hj]
    exact this
  have hpend2 : (((out.map Prod.snd).zip outE).enum).Pairwise
      (fun s t => DedupeSem.cosine_similarity t.2.2 s.2.2 < threshold) := by
    rw [List.pairwise_iff_getElem]
    intro i j hi hj hij
    have hle : i < out.length ∧ j < out.length := by
      simp only [List.enum_length, List.length_zip, List.length_map, lt_min_iff] at hi hj
      omega
    have hzi := List.getElem_enum (((out.map Prod.snd).zip outE)) i hi
    have hzj := List.getElem_enum (((out.map Prod.snd).zip outE)) j hj
    rw [hzi, hzj]
    have hi' : i < ((out.map Prod.snd).zip outE).length := by simpa using hi
    have hj' : j < ((out.map Prod.snd).zip outE).length := by simpa using hj
    rw [List.getElem_zip, List.getElem_zip]
    have h1 := hsimpair i j hle.1 hle.2 hij
    simpa [List.get_eq_getElem] using h1
  have hmain := dedupeGo_keep_all threshold (((out.map Prod.snd).zip outE).enum)
    hpend2 [] [] (by simp)
  unfold dedupe_chunks
  rw [hmain]
  simp only [List.nil_append]
  exact enum_zip_map_fst_text (out.map Prod.snd) outE (by simp [hlen])

/-! ## Document model: `RagDoc` (rag_core.py, lines 15-33) -/

/-- Opaque caller-defined metadata payload (a JSON-like record), never
interpreted by the engine. -/
def Metadata := List (Str × Str)

/-- The persisted document record. -/
structure RagDoc where
  id : Str
  text : Str
  embedding : List ℝ
  metadata : Option Metadata
  created_at : Str

/-- `RagDoc(...)` construction including `__post_init__` (lines 24-26):
an empty `created_at` is replaced by the construction-time timestamp
`now`. -/
def mkRagDoc (now id text : Str) (embedding : List ℝ)
    (metadata : Option Metadata) (created_at : Str) : RagDoc :=
  ⟨id, text, embedding, metadata, if created_at = [] then now else created_at⟩

/-- The fields the store round-trip claim compares: id, text, embedding
and metadata. -/
def docProj (d : RagDoc) : Str × Str × List ℝ × Option Metadata :=
  (d.id, d.text, d.embedding, d.metadata)

/-! ## Document stores (server.py)

Both stores persist one text unit per document (`{id}.md`) plus one
sidecar metadata record set (`.metadata.json`).  A directory or blob
container is modelled as a keyed list of text units together with the
optional sidecar; the sidecar is kept out of `files` because every loader
filters it out by name (it ends in `.json`, not `.md`). -/

/-- One sidecar record: `{embedding, metadata, created_at}`. -/
structure MetaRec where
  embedding : List ℝ
  metadata : Option Metadata
  created_at : Str

/-- A directory of text units (file name to contents) plus the optional
sidecar metadata map (document id to record). -/
structure StoreState where
  files : List (Str × Str)
  sidecar : Option (List (Str × MetaRec))

/-- Overwriting keyed write: a file overwrite, a blob upload with
`overwrite=True`, or a Python dict assignment. -/
def upsert {β : Type} (key : Str) (val : β) :
    List (Str × β) → List (Str × β)
  | [] => [(key, val)]
  | (k, v) :: rest =>
    if k = key then (k, val) :: rest else (k, v) :: upsert key val rest

/-- Python dict lookup `m.get(k)`. -/
def lookupA {β : Type} (key : Str) : List (Str × β) → Option β
  | [] => none
  | (k, v) :: rest => if k = key then some v else lookupA key rest

/-- The `.md` file extension. -/
def mdExt : Str := ['.', 'm', 'd']

/-- The `.json` file extension. -/
def jsonExt : Str := ['.', 'j', 's', 'o', 'n']

/-- The literal `.metadata` compared against file names in the local
loader. -/
def metadataName : Str := ['.', 'm', 'e', 't', 'a', 'd', 'a', 't', 'a']

/-- Python `s.endswith(suffix)`. -/
def pyEndsWith (s suffix : Str) : Bool := suffix.isSuffixOf s

/-- Python `s.startswith(".")`. -/
def startsWithDot : Str → Bool
  | [] => false
  | c :: _ => c == '.'

/-- The per-file document construction shared verbatim by both loaders
(server.py, lines 106-119 and 209-227): recover the id by dropping the
three-character `.md` suffix, look the id up in the sidecar map `M`, and
default missing fields to empty embedding, `None` metadata and empty
timestamp. -/
def loadDoc (now : Str) (M : List (Str × MetaRec)) (fc : Str × Str) : RagDoc :=
  mkRagDoc now (fc.1.take (fc.1.length - 3)) fc.2
    (((lookupA (fc.1.take (fc.1.length - 3)) M).map MetaRec.embedding).getD [])
    ((lookupA (fc.1.take (fc.1.length - 3)) M).bind MetaRec.metadata)
    (((lookupA (fc.1.take (fc.1.length - 3)) M).map MetaRec.created_at).getD [])

namespace MarkdownFileStore

/-- `MarkdownFileStore.save_rag_docs` (server.py, lines 129-155): write
each document body to `{id}.md` and rewrite the sidecar from scratch with
one record per document.  Pre-existing text files are never deleted. -/
def save_rag_docs (docs : List RagDoc) (s : StoreState) : StoreState :=
  { files := docs.foldl (fun fs d => upsert (d.id ++ mdExt) d.text fs) s.files,
    sidecar := some (docs.foldl
      (fun mm d => upsert d.id ⟨d.embedding, d.metadata, d.created_at⟩ mm) []) }

/-- `MarkdownFileStore.get_rag_docs` (server.py, lines 87-127): load the
sidecar (absent file gives an empty map), then build one document from
every file whose name ends in `.md` and differs from `.metadata`; the id
is the file name without its last three characters, and sidecar fields
missing for that id default to empty embedding, `None` metadata and empty
timestamp — which `__post_init__` then replaces by `now`. -/
def get_rag_docs (now : Str) (s : StoreState) : List RagDoc :=
  s.files.filterMap (fun fc =>
    if pyEndsWith fc.1 mdExt = true ∧ fc.1 ≠ metadataName then
      some (loadDoc now (s.sidecar.getD []) fc)
    else none)

end MarkdownFileStore

namespace AzureBlobStore

/-- `AzureBlobStore.save_rag_docs` (server.py, lines 238-273): upload each
document body as `{id}.md` with `overwrite=True` and re-upload the
`.metadata.json` blob built from the given documents only.  Pre-existing
blobs are never deleted. -/
def save_rag_docs (docs : List RagDoc) (s : StoreState) : StoreState :=
  { files := docs.foldl (fun fs d => upsert (d.id ++ mdExt) d.text fs) s.files,
    sidecar := some (docs.foldl
      (fun mm d => upsert d.id ⟨d.embedding, d.metadata, d.created_at⟩ mm) []) }

/-- `AzureBlobStore.get_rag_docs` (server.py, lines 181-236): a failed
metadata download degrades to an empty map; blobs whose name starts with
`.` or ends with `.json` are skipped, the rest must end in `.md`; missing
sidecar fields default exactly as in the local store. -/
def get_rag_docs (now : Str) (s : StoreState) : List RagDoc :=
  s.files.filterMap (fun fc =>
    if startsWithDot fc.1 = true ∨ pyEndsWith fc.1 jsonExt = true then none
    else if pyEndsWith fc.1 mdExt = true then
      some (loadDoc now (s.sidecar.getD []) fc)
    else none)

end AzureBlobStore

/-! ### Store lemmas -/

theorem upsert_of_not_mem {β : Type} (key : Str) (val : β) :
    ∀ (l : List (Str × β)), key ∉ l.map Prod.fst →
      upsert key val l = l ++ [(key, val)] := by
  intro l
  induction l with
  | nil => intro _; rfl
  | cons kv rest ih =>
    intro h
    obtain ⟨k, v⟩ := kv
    simp only [List.map_cons, List.mem_cons] at h
    push_neg at h
    rw [upsert, if_neg (fun hc => h.1 hc.symm), ih h.2]
    rfl

theorem foldl_upsert_eq_append {α β : Type} (keyf : α → Str) (valf : α → β) :
    ∀ (docs : List α) (acc : List (Str × β)),
      (∀ d ∈ docs, keyf d ∉ acc.map Prod.fst) →
      (docs.map keyf).Nodup →
      docs.foldl (fun mm d => upsert (keyf d) (valf d) mm) acc
        = acc ++ docs.map (fun d => (keyf d, valf d)) := by
  intro docs
  induction docs with
  | nil => intro acc _ _; simp
  | cons d rest ih =>
    intro acc hacc hnd
    have hcons : keyf d ∉ rest.map keyf ∧ (rest.map keyf).Nodup := by
      simpa only [List.map_cons, List.nodup_cons] using hnd
    simp only [List.foldl_cons]
    rw [upsert_of_not_mem _ _ acc (hacc d (by simp))]
    rw [ih (acc ++ [(keyf d, valf d)]) ?_ hcons.2]
    · simp
    · intro d' hd'
      simp only [List.map_append, List.mem_append, List.map_cons, List.map_nil,
        List.mem_singleton]
      push_neg
      refine ⟨fun hc => hacc d' (by simp [hd']) hc, ?_⟩
      intro hc
      exact hcons.1 (by rw [← hc]; exact List.mem_map_of_mem keyf hd')

theorem lookupA_map_of_nodup {α β : Type} (keyf : α → Str) (valf : α → β) :
    ∀ (docs : List α), (docs.map keyf).Nodup →
      ∀ d ∈ docs, lookupA (keyf d)
        (docs.map (fun d' => (keyf d', valf d'))) = some (valf d) := by
  intro docs
  induction docs with
  | nil => intro _ d hd; simp at hd
  | cons d0 rest ih =>
    intro hnd d hd
    have hcons : keyf d0 ∉ rest.map keyf ∧ (rest.map keyf).Nodup := by
      simpa only [List.map_cons, List.nodup_cons] using hnd
    simp only [List.map_cons]
    rcases List.mem_cons.mp hd with rfl | hd'
    · rw [lookupA, if_pos rfl]
    · rw [lookupA, if_neg ?_]
      · exact ih hcons.2 d hd'
      · intro hc
        exact hcons.1 (by rw [hc]; exact List.mem_map_of_mem keyf hd')

theorem pyEndsWith_append (x suffix : Str) :
    pyEndsWith (x ++ suffix) suffix = true := by
  unfold pyEndsWith
  exact List.isSuffixOf_iff_suffix.mpr (List.suffix_append x suffix)

theorem take_md (id : Str) :
    (id ++ mdExt).take ((id ++ mdExt).length - 3) = id := by
  have hl : (id ++ mdExt).length - 3 = id.length := by
    rw [List.length_append]
    rfl
  rw [hl]
  exact List.take_left id mdExt

theorem ne_metadataName_of_md {fn : Str} (h : pyEndsWith fn mdExt = true) :
    fn ≠ metadataName := by
  intro hc
  subst hc
  exact absurd h (by decide)

theorem not_json_of_md {fn : Str} (h : pyEndsWith fn mdExt = true) :
    pyEndsWith fn jsonExt = false := by
  cases hb : pyEndsWith fn jsonExt
  · rfl
  · exfalso
    obtain ⟨t1, ht1⟩ := List.isSuffixOf_iff_suffix.mp h
    obtain ⟨t2, ht2⟩ := List.isSuffixOf_iff_suffix.mp hb
    have g1 : fn.reverse.head? = some 'd' := by
      rw [← ht1, List.reverse_append]
      rfl
    have g2 : fn.reverse.head? = some 'n' := by
      rw [← ht2, List.reverse_append]
      rfl
    cases g1.symm.trans g2

theorem startsWithDot_fname {id : Str} (hne : id ≠ []) :
    startsWithDot (id ++ mdExt) = startsWithDot id := by
  cases id with
  | nil => exact absurd rfl hne
  | cons a t => rfl

theorem loadDoc_saved (now : Str) (M : List (Str × MetaRec)) (d : RagDoc)
    (hM : lookupA d.id M = some ⟨d.embedding, d.metadata, d.created_at⟩) :
    loadDoc now M (d.id ++ mdExt, d.text)
      = mkRagDoc now d.id d.text d.embedding d.metadata d.created_at := by
  unfold loadDoc
  simp only [take_md, hM, Option.map_some', Option.getD_some, Option.some_bind]

theorem loadDoc_missing (now : Str) (M : List (Str × MetaRec)) (fc : Str × Str)
    (hmiss : lookupA (fc.1.take (fc.1.length - 3)) M = none) :
    loadDoc now M fc = ⟨fc.1.take (fc.1.length - 3), fc.2, [], none, now⟩ := by
  simp [loadDoc, hmiss, mkRagDoc]

theorem md_get_saved (now : Str) (M : List (Str × MetaRec)) (docs : List RagDoc)
    (hM : ∀ d ∈ docs,
      lookupA d.id M = some ⟨d.embedding, d.metadata, d.created_at⟩) :
    MarkdownFileStore.get_rag_docs now
        ⟨docs.map (fun d => (d.id ++ mdExt, d.text)), some M⟩
      = docs.map (fun d =>
          mkRagDoc now d.id d.text d.embedding d.metadata d.created_at) := by
  unfold MarkdownFileStore.get_rag_docs
  rw [List.filterMap_map]
  apply List.filterMap_eq_map_iff_forall_eq_some.mpr
  intro d hd
  simp only [Function.comp]
  rw [if_pos ⟨pyEndsWith_append d.id mdExt,
    ne_metadataName_of_md (pyEndsWith_append d.id mdExt)⟩]
  rw [Option.getD_some, loadDoc_saved now M d (hM d hd)]

theorem az_get_saved (now : Str) (M : List (Str × MetaRec)) (docs : List RagDoc)
    (hM : ∀ d ∈ docs,
      lookupA d.id M = some ⟨d.embedding, d.metadata, d.created_at⟩)
    (hdot : ∀ d ∈ docs, d.id ≠ [] ∧ startsWithDot d.id = false) :
    AzureBlobStore.get_rag_docs now
        ⟨docs.map (fun d => (d.id ++ mdExt, d.text)), some M⟩
      = docs.map (fun d =>
          mkRagDoc now d.id d.text d.embedding d.metadata d.created_at) := by
  unfold AzureBlobStore.get_rag_docs
  rw [List.filterMap_map]
  apply List.filterMap_eq_map_iff_forall_eq_some.mpr
  intro d hd
  simp only [Function.comp]
  rw [if_neg ?_, if_pos (pyEndsWith_append d.id mdExt)]
  · rw [Option.getD_some, loadDoc_saved now M d (hM d hd)]
  · rintro (hc | hc)
    · rw [startsWithDot_fname (hdot d hd).1, (hdot d hd).2] at hc
      cases hc
    · rw [not_json_of_md (pyEndsWith_append d.id mdExt)] at hc
      cases hc

/-! ### Claims C1 and C10 -/

/-- C1 (amended): from a store holding no text units (regardless of any
pre-existing sidecar), `save_rag_docs(docs)` followed by `get_rag_docs()`
returns a set of documents with exactly the ids, texts, embeddings and
metadata of `docs`, on both backends, provided ids are distinct (and, for
the blob backend, nonempty and not dot-leading, since that loader skips
dot-prefixed blobs).  The claim as stated — a full replace regardless of
the previous contents — is false, because neither backend deletes
pre-existing text units; see the counterexample. -/
theorem claim_C1_store_roundtrip (now : Str) (docs : List RagDoc)
    (sc : Option (List (Str × MetaRec)))
    (hids : (docs.map RagDoc.id).Nodup)
    (hdot : ∀ d ∈ docs, d.id ≠ [] ∧ startsWithDot d.id = false) :
    ((MarkdownFileStore.get_rag_docs now
        (MarkdownFileStore.save_rag_docs docs ⟨[], sc⟩)).map docProj).Perm
      (docs.map docProj) ∧
    ((AzureBlobStore.get_rag_docs now
        (AzureBlobStore.save_rag_docs docs ⟨[], sc⟩)).map docProj).Perm
      (docs.map docProj) := by
  have hkeys : (docs.map (fun d => d.id ++ mdExt)).Nodup := by
    have he : docs.map (fun d => d.id ++ mdExt)
        = (docs.map RagDoc.id).map (· ++ mdExt) := by
      rw [List.map_map]
      rfl
    rw [he]
    exact hids.map (fun a b h => by simpa using h)
  have hfiles : docs.foldl (fun fs d => upsert (d.id ++ mdExt) d.text fs) [] =
      docs.map (fun d => (d.id ++ mdExt, d.text)) := by
    have := foldl_upsert_eq_append (fun d : RagDoc => d.id ++ mdExt)
      RagDoc.text docs [] (by simp) hkeys
    simpa using this
  have hmeta : docs.foldl (fun mm d =>
        upsert d.id ⟨d.embedding, d.metadata, d.created_at⟩ mm) [] =
      docs.map (fun d =>
        (d.id, (⟨d.embedding, d.metadata, d.created_at⟩ : MetaRec))) := by
    have := foldl_upsert_eq_append RagDoc.id
      (fun d : RagDoc => (⟨d.embedding, d.metadata, d.created_at⟩ : MetaRec))
      docs [] (by simp) hids
    simpa using this
  have hM : ∀ d ∈ docs, lookupA d.id
      (docs.map (fun d' =>
        (d'.id, (⟨d'.embedding, d'.metadata, d'.created_at⟩ : MetaRec))))
      = some ⟨d.embedding, d.metadata, d.created_at⟩ :=
    lookupA_map_of_nodup RagDoc.id _ docs hids
  have hproj : (docProj ∘ fun d : RagDoc =>
      mkRagDoc now d.id d.text d.embedding d.metadata d.created_at) = docProj := by
    funext d
    rfl
  constructor
  · rw [show MarkdownFileStore.save_rag_docs docs ⟨[], sc⟩ =
        ⟨docs.map (fun d => (d.id ++ mdExt, d.text)),
          some (docs.map (fun d =>
            (d.id, ⟨d.embedding, d.metadata, d.created_at⟩)))⟩ from by
      unfold MarkdownFileStore.save_rag_docs
      dsimp only
      rw [hfiles, hmeta]]
    rw [md_get_saved now _ docs hM, List.map_map, hproj]
  · rw [show AzureBlobStore.save_rag_docs docs ⟨[], sc⟩ =
        ⟨docs.map (fun d => (d.id ++ mdExt, d.text)),
          some (docs.map (fun d =>
            (d.id, ⟨d.embedding, d.metadata, d.created_at⟩)))⟩ from by
      unfold AzureBlobStore.save_rag_docs
      dsimp only
      rw [hfiles, hmeta]]
    rw [az_get_saved now _ docs hM hdot, List.map_map, hproj]

/-- Witness for C1: the round trip at a concrete one-document save into an
empty store. -/
theorem claim_C1_witness :
    ((MarkdownFileStore.get_rag_docs ['N']
        (MarkdownFileStore.save_rag_docs [⟨['a'], ['t'], [], none, ['T']⟩]
          ⟨[], none⟩)).map docProj).Perm
      ([(⟨['a'], ['t'], [], none, ['T']⟩ : RagDoc)].map docProj) ∧
    ((AzureBlobStore.get_rag_docs ['N']
        (AzureBlobStore.save_rag_docs [⟨['a'], ['t'], [], none, ['T']⟩]
          ⟨[], none⟩)).map docProj).Perm
      ([(⟨['a'], ['t'], [], none, ['T']⟩ : RagDoc)].map docProj) :=
  claim_C1_store_roundtrip ['N'] [⟨['a'], ['t'], [], none, ['T']⟩] none
    (by decide) (by decide)

/-- C1 counterexample to the claim as stated: starting from a store that
already holds one text unit `x.md`, saving the empty document list and
loading back does not yield the empty set — the stale text unit survives
(with empty embedding and metadata), because `save_rag_docs` never deletes
text units. -/
theorem claim_C1_counterexample :
    (MarkdownFileStore.get_rag_docs ['T']
        (MarkdownFileStore.save_rag_docs []
          ⟨[(['x', '.', 'm', 'd'], ['h', 'i'])], none⟩)).map docProj
      = [(['x'], ['h', 'i'], ([] : List ℝ), (none : Option Metadata))] ∧
    ¬ ((MarkdownFileStore.get_rag_docs ['T']
        (MarkdownFileStore.save_rag_docs []
          ⟨[(['x', '.', 'm', 'd'], ['h', 'i'])], none⟩)).map docProj).Perm
      (([] : List RagDoc).map docProj) := by
  refine ⟨rfl, ?_⟩
  intro h
  exact absurd (h.length_eq : (1 : ℕ) = 0) (by decide)

/-- C10 (amended): a persisted text unit whose id has no sidecar entry is
still returned rather than dropped, with empty embedding and no metadata —
but its timestamp is not empty: `__post_init__` replaces the empty
`created_at` with the load-time `now`. -/
theorem claim_C10_missing_sidecar (now : Str) (s : StoreState)
    (fn content : Str)
    (hmem : (fn, content) ∈ s.files)
    (hmd : pyEndsWith fn mdExt = true)
    (hdot : startsWithDot fn = false)
    (hmiss : lookupA (fn.take (fn.length - 3)) (s.sidecar.getD []) = none) :
    (⟨fn.take (fn.length - 3), content, [], none, now⟩ : RagDoc)
        ∈ MarkdownFileStore.get_rag_docs now s ∧
    (⟨fn.take (fn.length - 3), content, [], none, now⟩ : RagDoc)
        ∈ AzureBlobStore.get_rag_docs now s := by
  constructor
  · unfold MarkdownFileStore.get_rag_docs
    apply List.mem_filterMap.mpr
    refine ⟨(fn, content), hmem, ?_⟩
    rw [if_pos ⟨hmd, ne_metadataName_of_md hmd⟩,
      loadDoc_missing now _ (fn, content) hmiss]
  · unfold AzureBlobStore.get_rag_docs
    apply List.mem_filterMap.mpr
    refine ⟨(fn, content), hmem, ?_⟩
    rw [if_neg ?_, if_pos hmd]
    · rw [loadDoc_missing now _ (fn, content) hmiss]
    · rintro (hc | hc)
      · rw [hdot] at hc
        cases hc
      · rw [not_json_of_md hmd] at hc
        cases hc

/-- Witness for C10 at a concrete store with one orphan text unit. -/
theorem claim_C10_witness :
    (⟨['x'], ['h'], [], none, ['T']⟩ : RagDoc)
        ∈ MarkdownFileStore.get_rag_docs ['T']
          ⟨[(['x', '.', 'm', 'd'], ['h'])], none⟩ ∧
    (⟨['x'], ['h'], [], none, ['T']⟩ : RagDoc)
        ∈ AzureBlobStore.get_rag_docs ['T']
          ⟨[(['x', '.', 'm', 'd'], ['h'])], none⟩ :=
  claim_C10_missing_sidecar ['T'] ⟨[(['x', '.', 'm', 'd'], ['h'])], none⟩
    ['x', '.', 'm', 'd'] ['h'] (List.mem_singleton.mpr rfl) (by decide)
    (by decide) rfl

/-- C10 counterexample to the claim as stated: the orphan text unit comes
back with `created_at` equal to the load time, not the empty timestamp the
claim promises. -/
theorem claim_C10_counterexample :
    (MarkdownFileStore.get_rag_docs ['T']
        ⟨[(['x', '.', 'm', 'd'], ['h'])], none⟩).map RagDoc.created_at
      = [['T']] ∧ (['T'] : Str) ≠ [] :=
  ⟨rfl, by decide⟩

/-! ## Retrieval manager: `RAGManager` (rag_core.py, lines 74-151)

The store interface `IRAGStore` is modelled as a pair of pure functions
over an abstract state type, and the embedding service `IEmbeddingService`
as a fallible function (`create_embedding` raises on failure). -/

/-- Why `create_embedding` can fail (openai_service.py: non-success HTTP
status, or a payload without the embedding field). -/
inductive EmbError : Type
  | httpError : ℕ → EmbError
  | invalidPayload : EmbError

/-- The `IRAGStore` interface: `get_rag_docs` and `save_rag_docs` over an
abstract backend state. -/
structure RAGStore (σ : Type) where
  get_rag_docs : σ → List RagDoc
  save_rag_docs : List RagDoc → σ → σ

/-- The `RAGManager` state: a store, an embedding service and `top_k`
(a Python int, so any integer can be set via `set_top_k`). -/
structure RAGManager (σ : Type) where
  store : RAGStore σ
  embedding_service : Str → Except EmbError (List ℝ)
  top_k : ℤ

/-- `set_top_k` (rag_core.py, lines 148-150). -/
def set_top_k {σ : Type} (m : RAGManager σ) (k : ℤ) : RAGManager σ :=
  { m with top_k := k }

/-- Errors surfaced by `add_documents`: the `ValueError` for an empty
input, or a propagated embedding failure. -/
inductive RagError : Type
  | invalidInput : RagError
  | embeddingFailure : EmbError → RagError

/-- The `for text in texts` loop of `add_documents` (rag_core.py, lines
98-106): one embedding call per text in order, aborting on the first
failure; each new document gets a fresh id `genId i` and an empty
`created_at`, which `__post_init__` stamps with `now`. -/
def addLoop (emb : Str → Except EmbError (List ℝ)) (genId : ℕ → Str)
    (now : Str) (metadata : Option Metadata) :
    ℕ → List Str → Except EmbError (List RagDoc)
  | _, [] => .ok []
  | i, t :: rest =>
    match emb t with
    | .error e => .error e
    | .ok v =>
      match addLoop emb genId now metadata (i + 1) rest with
      | .error e => .error e
      | .ok ds => .ok (mkRagDoc now (genId i) t v metadata [] :: ds)

/-- `add_documents` (rag_core.py, lines 87-109): reject empty input, embed
every text, append the new documents to the loaded set and persist it with
a single `save_rag_docs` at the end; any error leaves the state
untouched.  Returns the count of added documents on success. -/
def add_documents {σ : Type} (m : RAGManager σ) (genId : ℕ → Str)
    (now : Str) (texts : List Str) (metadata : Option Metadata) (s : σ) :
    Except RagError ℕ × σ :=
  if texts = [] then (.error .invalidInput, s)
  else
    match addLoop m.embedding_service genId now metadata 0 texts with
    | .error e => (.error (.embeddingFailure e), s)
    | .ok newDocs =>
      (.ok texts.length,
        m.store.save_rag_docs (m.store.get_rag_docs s ++ newDocs) s)

/-- Python `ranked[:top_k]` on an arbitrary int `top_k`: a nonnegative
bound takes a prefix, a negative bound drops that many elements from the
end. -/
def pyTake {α : Type} (k : ℤ) (l : List α) : List α :=
  if 0 ≤ k then l.take k.toNat else l.take ((l.length : ℤ) + k).toNat

open Classical in
/-- `retrieve_documents` (rag_core.py, lines 111-128): empty store returns
the empty list before any embedding call; otherwise embed the query, score
every stored document with `RagCore.cosine_similarity`, stable-sort by
score descending, and return the first `top_k` documents. -/
noncomputable def retrieve_documents {σ : Type} (m : RAGManager σ) (s : σ)
    (query : Str) : Except EmbError (List RagDoc) :=
  if m.store.get_rag_docs s = [] then .ok []
  else
    match m.embedding_service query with
    | .error e => .error e
    | .ok qe =>
      .ok ((pyTake m.top_k
        (((m.store.get_rag_docs s).map (fun d =>
          (d, RagCore.cosine_similarity qe d.embedding))).mergeSort
            (fun x y => decide (y.2 ≤ x.2)))).map Prod.fst)

theorem addLoop_error_of_exists (emb : Str → Except EmbError (List ℝ))
    (genId : ℕ → Str) (now : Str) (metadata : Option Metadata) :
    ∀ (texts : List Str) (i : ℕ),
      (∃ t ∈ texts, ∃ e, emb t = .error e) →
      ∃ e, addLoop emb genId now metadata i texts = .error e := by
  intro texts
  induction texts with
  | nil =>
    intro i h
    obtain ⟨t, ht, -⟩ := h
    simp at ht
  | cons t rest ih =>
    intro i h
    rw [addLoop]
    rcases he : emb t with e | v
    · exact ⟨e, rfl⟩
    · obtain ⟨t', ht', e', he'⟩ := h
      rcases List.mem_cons.mp ht' with rfl | ht''
      · rw [he] at he'
        cases he'
      · obtain ⟨e, hrec⟩ := ih (i + 1) ⟨t', ht'', e', he'⟩
        rw [hrec]
        exact ⟨e, rfl⟩

/-! ### Claim C2 -/

/-- C2: `add_documents` raises `InvalidInput` exactly when `texts` is
empty; if the embedding provider fails on any text the error propagates as
an `EmbeddingFailure` and the persisted state is left unchanged (the
single save happens only after every embedding succeeded); on success the
returned count equals the number of input texts. -/
theorem claim_C2_add_documents {σ : Type} (m : RAGManager σ)
    (genId : ℕ → Str) (now : Str) (texts : List Str)
    (metadata : Option Metadata) (s : σ) :
    ((add_documents m genId now texts metadata s).1
        = .error .invalidInput ↔ texts = []) ∧
    (texts ≠ [] → (∃ t ∈ texts, ∃ e, m.embedding_service t = .error e) →
      ∃ e, (add_documents m genId now texts metadata s).1
        = .error (.embeddingFailure e)) ∧
    (∀ err, (add_documents m genId now texts metadata s).1 = .error err →
      (add_documents m genId now texts metadata s).2 = s) ∧
    (∀ n, (add_documents m genId now texts metadata s).1 = .ok n →
      n = texts.length) := by
  by_cases hT : texts = []
  · subst hT
    refine ⟨by simp [add_documents], by simp, ?_, ?_⟩
    · intro err _
      rfl
    · intro n hn
      rw [show (add_documents m genId now [] metadata s).1
          = .error .invalidInput from rfl] at hn
      cases hn
  · unfold add_documents
    rw [if_neg hT]
    rcases hl : addLoop m.embedding_service genId now metadata 0 texts with e | ds
    · refine ⟨?_, ?_, ?_, ?_⟩
      · constructor
        · intro hc
          cases hc
        · intro hc
          exact absurd hc hT
      · intro _ _
        exact ⟨e, rfl⟩
      · intro err _
        rfl
      · intro n hn
        cases hn
    · refine ⟨?_, ?_, ?_, ?_⟩
      · constructor
        · intro hc
          cases hc
        · intro hc
          exact absurd hc hT
      · intro _ hfail
        obtain ⟨e, he⟩ := addLoop_error_of_exists m.embedding_service genId now
          metadata texts 0 hfail
        rw [hl] at he
        cases he
      · intro err herr
        cases herr
      · intro n hn
        cases hn
        rfl

/-- A trivially functional store over the state `List RagDoc`, used to
instantiate the manager at concrete inputs. -/
def constStore : RAGStore (List RagDoc) :=
  ⟨fun s => s, fun docs _ => docs⟩

/-- A test document. -/
def testDoc : RagDoc := ⟨['d'], ['t'], [], none, ['T']⟩

/-- An embedding service that always fails. -/
def failEmb : Str → Except EmbError (List ℝ) :=
  fun _ => .error .invalidPayload

/-- A manager over `constStore` whose embedding service always fails. -/
def failManager : RAGManager (List RagDoc) := ⟨constStore, failEmb, 4⟩

/-- Witness for C2 at a concrete failing manager: one text, embedding
fails, the call errors and the state is untouched. -/
theorem claim_C2_witness :
    (∃ e, (add_documents failManager (fun _ => ['i']) ['T'] [['t']] none
      [testDoc]).1 = .error (.embeddingFailure e)) ∧
    (add_documents failManager (fun _ => ['i']) ['T'] [['t']] none
      [testDoc]).2 = [testDoc] := by
  obtain ⟨-, h2, h3, -⟩ := claim_C2_add_documents failManager
    (fun _ => ['i']) ['T'] [['t']] none [testDoc]
  obtain ⟨e, he⟩ := h2 (by simp)
    ⟨['t'], by simp, .invalidPayload, rfl⟩
  exact ⟨⟨e, he⟩, h3 (.embeddingFailure e) he⟩

/-! ### Claim C6 -/

/-- C6 (amended): provided the manager's `top_k` is nonnegative,
`retrieve_documents` returns the empty list (not an error) on an empty
store, never returns more than `top_k` documents, and returns fewer than
`top_k` only when the store holds fewer than `top_k` documents.  As stated
over every reachable manager state the claim is false: `set_top_k` (fed by
the `limit` query parameter of the search endpoint) accepts negative
values, and Python slicing then drops documents from the end — see the
counterexample. -/
theorem claim_C6_retrieve_topk {σ : Type} (m : RAGManager σ) (s : σ)
    (query : Str) (hk : 0 ≤ m.top_k) :
    (m.store.get_rag_docs s = [] → retrieve_documents m s query = .ok []) ∧
    (∀ l, retrieve_documents m s query = .ok l →
      ((l.length : ℤ) ≤ m.top_k ∧
        ((l.length : ℤ) < m.top_k →
          ((m.store.get_rag_docs s).length : ℤ) < m.top_k))) := by
  constructor
  · intro h
    unfold retrieve_documents
    rw [if_pos h]
  · intro l hl
    unfold retrieve_documents at hl
    by_cases hd : m.store.get_rag_docs s = []
    · rw [if_pos hd] at hl
      cases hl
      refine ⟨by simpa using hk, ?_⟩
      intro hlt
      rw [hd]
      simpa using hlt
    · rw [if_neg hd] at hl
      rcases he : m.embedding_service query with e | qe
      · rw [he] at hl
        cases hl
      · rw [he] at hl
        cases hl
        have hrlen : (((m.store.get_rag_docs s).map (fun d =>
            (d, RagCore.cosine_similarity qe d.embedding))).mergeSort
              (fun x y => decide (y.2 ≤ x.2))).length
            = (m.store.get_rag_docs s).length := by
          rw [List.length_mergeSort, List.length_map]
        have htk := Int.toNat_of_nonneg hk
        constructor
        · rw [List.length_map]
          unfold pyTake
          rw [if_pos hk, List.length_take, hrlen]
          omega
        · intro hlt
          rw [List.length_map] at hlt
          unfold pyTake at hlt
          rw [if_pos hk, List.length_take, hrlen] at hlt
          omega

/-- An embedding service returning the fixed empty vector. -/
def okEmb : Str → Except EmbError (List ℝ) := fun _ => .ok []

/-- A manager over `constStore` with the default `top_k = 4`. -/
def testManager : RAGManager (List RagDoc) := ⟨constStore, okEmb, 4⟩

/-- Witness for C6: retrieval against the empty store returns the empty
list. -/
theorem claim_C6_witness :
    retrieve_documents testManager [] ['q'] = .ok [] :=
  (claim_C6_retrieve_topk testManager [] ['q'] (by decide)).1 rfl

/-- C6 counterexample to the claim as stated: after `set_top_k(-1)` (the
search endpoint passes its `limit` parameter straight through), a
one-document store yields zero documents, and the returned count does not
satisfy the claimed `length ≤ top_k` bound. -/
theorem claim_C6_counterexample :
    retrieve_documents (set_top_k testManager (-1)) [testDoc] ['q'] = .ok [] ∧
    ¬ (((([] : List RagDoc).length : ℕ) : ℤ)
        ≤ (set_top_k testManager (-1)).top_k) := by
  constructor
  · have hmain : (pyTake (set_top_k testManager (-1)).top_k
        (([testDoc].map (fun d => (d, RagCore.cosine_similarity []
          d.embedding))).mergeSort (fun x y => decide (y.2 ≤ x.2)))).map Prod.fst
        = [] := by
      have hlen : (([testDoc].map (fun d => (d, RagCore.cosine_similarity []
          d.embedding))).mergeSort (fun x y => decide (y.2 ≤ x.2))).length = 1 := by
        rw [List.length_mergeSort, List.length_map]
        rfl
      unfold pyTake
      rw [if_neg (by decide), hlen,
        show (set_top_k testManager (-1)).top_k = -1 from rfl]
      simp
    unfold retrieve_documents
    rw [if_neg (show ¬((set_top_k testManager (-1)).store.get_rag_docs
      [testDoc] = []) from List.cons_ne_nil testDoc [])]
    show Except.ok ((pyTake (set_top_k testManager (-1)).top_k
      (([testDoc].map (fun d => (d, RagCore.cosine_similarity []
        d.embedding))).mergeSort (fun x y => decide (y.2 ≤ x.2)))).map Prod.fst)
      = Except.ok []
    rw [hmain]
  · decide

end KnockKnock
